import Mathlib

/-!
Verification of the cmdbox repository (Go): a shallow embedding of the
placeholder engine (`runner.ExtractParams`, `runner.SubstituteParams`), the
process streamer (`runner.Run` / `ui.waitForOutput`), and the interaction
state machine helpers (`ui.parseInlineParams`, `ui.updateParam`,
`ui.executeCommand`'s saved-parameter computation, `ui.filterCommands`,
`ui.submitCommandForm`, `ui.truncate`, `db.IsDuplicateCmd`,
`db.IsDuplicateName`).

Go strings are modelled as `List Char` (`Str`); Go maps as association
lists (iteration order made explicit as list order, since Go map iteration
order is unspecified).
-/

namespace Cmdbox

abbrev Str := List Char

/-- Word character of Go's regexp `\w`: `[0-9A-Za-z_]`. -/
def wordChar (c : Char) : Bool :=
  ('a' ≤ c && c ≤ 'z') || ('A' ≤ c && c ≤ 'Z') || ('0' ≤ c && c ≤ '9') || c = '_'

/-- A brace character `{` or `}`. -/
def isBrace (c : Char) : Bool := c = '{' || c = '}'

/-- Predicate: `s` contains no brace character. -/
def braceFree (s : Str) : Bool := s.all (fun c => !isBrace c)

/-- The tail of a `paramRegex` attempt, after `{{` and the optional `!` have
been consumed: a nonempty maximal `\w+` run followed by `}}`. -/
def tryTail (bang : Bool) (rest : Str) : Option (Bool × Str × Str) :=
  match rest.dropWhile wordChar with
  | '}' :: '}' :: r =>
    if rest.takeWhile wordChar = [] then none
    else some (bang, rest.takeWhile wordChar, r)
  | _ => none

/-- One attempt of Go's `paramRegex = \{\{(!)?(\w+)\}\}` at the head of the
string: on success returns the `!` flag, the captured name and the rest of
the string after the match.  The committed consumption of `!` is faithful:
if `!` is present but no `\w+}}` follows, the alternative of not consuming
`!` also fails because `!` is not a word character; and because `}` is not a
word character the greedy `\w+` has a unique viable run, so this
deterministic scan agrees with Go's leftmost matching. -/
def tryMatch : Str → Option (Bool × Str × Str)
  | '{' :: '{' :: '!' :: rest => tryTail true rest
  | '{' :: '{' :: rest => tryTail false rest
  | _ => none

theorem tryTail_length {b b' : Bool} {rest n r : Str}
    (h : tryTail b rest = some (b', n, r)) : r.length < rest.length := by
  unfold tryTail at h
  split at h
  · rename_i r' heq
    split at h
    · simp at h
    · have hsub : (rest.dropWhile wordChar).Sublist rest := List.dropWhile_sublist _
      have hlen : (rest.dropWhile wordChar).length ≤ rest.length := hsub.length_le
      rw [heq] at hlen
      simp only [Option.some.injEq, Prod.mk.injEq] at h
      obtain ⟨-, -, rfl⟩ := h
      simp only [List.length_cons] at hlen
      omega
  · simp at h

theorem tryMatch_length {s : Str} {b : Bool} {n r : Str}
    (h : tryMatch s = some (b, n, r)) : r.length < s.length := by
  unfold tryMatch at h
  split at h
  · have := tryTail_length h
    simp only [List.length_cons]
    omega
  · have := tryTail_length h
    simp only [List.length_cons]
    omega
  · simp at h

/-- Fuelled scanner: all non-overlapping leftmost matches of `paramRegex`,
as Go's `FindAllStringSubmatch(cmd, -1)` produces them (the `!` flag and the
name of each match, in order).  The fuel is only a termination device;
`findMatches` supplies `s.length`, which is always sufficient. -/
def findMatchesF : Nat → Str → List (Bool × Str)
  | _, [] => []
  | 0, _ => []
  | fuel + 1, c :: rest =>
    match tryMatch (c :: rest) with
    | some (b, n, r) => (b, n) :: findMatchesF fuel r
    | none => findMatchesF fuel rest

/-- All matches of `paramRegex` in `cmd`, in order. -/
def findMatches (s : Str) : List (Bool × Str) := findMatchesF s.length s

/-- The dedup-by-`seen` loop of `runner.ExtractParams`. -/
structure ParamInfo where
  Name : Str
  Sensitive : Bool
deriving DecidableEq, Repr

def extractGo : List (Bool × Str) → List Str → List ParamInfo
  | [], _ => []
  | (b, n) :: ms, seen =>
    if n ∈ seen then extractGo ms seen
    else ⟨n, b⟩ :: extractGo ms (n :: seen)

/-- Model of `runner.ExtractParams`: all `{{param}}` and `{{!param}}` from a command
string, one entry per first-seen name, flagged by that occurrence's `!`. -/
def ExtractParams (cmd : Str) : List ParamInfo :=
  extractGo (findMatches cmd) []

example : findMatches "cp {{src}} {{dst}} {{src}}".toList =
    [(false, "src".toList), (false, "dst".toList), (false, "src".toList)] := by decide
example : ExtractParams "cp {{src}} {{dst}} {{src}}".toList =
    [⟨"src".toList, false⟩, ⟨"dst".toList, false⟩] := by decide
example : ExtractParams "login {{user}} {{!user}}".toList =
    [⟨"user".toList, false⟩] := by decide
example : ExtractParams "login {{!user}} {{user}}".toList =
    [⟨"user".toList, true⟩] := by decide
example : findMatches "{{x{{a}}y}}".toList = [(false, "a".toList)] := by decide
example : findMatches "\x7b\x7ba\x7d".toList = [] := by decide
example : findMatches "{{!}}".toList = [] := by decide

/-- Fuelled scanner of Go's `strings.ReplaceAll` for a nonempty pattern
`o :: os`: left-to-right, non-overlapping replacement of every occurrence.
The fuel is only a termination device; `replaceAll` supplies `s.length`,
which is always sufficient. -/
def raGoF (o : Char) (os new : Str) : Nat → Str → Str
  | _, [] => []
  | 0, s => s
  | fuel + 1, c :: rest =>
    if (o :: os).isPrefixOf (c :: rest)
    then new ++ raGoF o os new fuel (rest.drop os.length)
    else c :: raGoF o os new fuel rest

/-- Model of `strings.ReplaceAll s old new`.  (Go's behaviour for an empty `old`
interleaves `new` between characters; the callers in this repository only
ever pass the nonempty patterns `"{{"+name+"}}"` and `"{{!"+name+"}}"`, and
for an empty pattern we return `s` unchanged.) -/
def replaceAll (s old new : Str) : Str :=
  match old with
  | [] => s
  | o :: os => raGoF o os new s.length s

/-- Model of `runner.SubstituteParams`: replaces `{{param}}` and `{{!param}}` with the
provided values.  The Go `for name, value := range values` map loop is
modelled by a fold over an association list standing for one iteration
order of the map. -/
def SubstituteParams (cmd : Str) (values : List (Str × Str)) : Str :=
  values.foldl (fun result nv =>
    replaceAll (replaceAll result ('{' :: '{' :: nv.1 ++ ['}', '}']) nv.2)
      ('{' :: '{' :: '!' :: nv.1 ++ ['}', '}']) nv.2) cmd

example : SubstituteParams "ssh {{user}}@{{host}}".toList
    [("user".toList, "alice".toList), ("host".toList, "box1".toList)] =
    "ssh alice@box1".toList := by decide
example : SubstituteParams "login {{user}} {{!user}}".toList
    [("user".toList, "alice".toList)] = "login alice alice".toList := by decide
example : SubstituteParams "{{x{{a}}y}}".toList [("a".toList, "b".toList)] =
    "{{xby}}".toList := by decide
example : SubstituteParams "{{a}}".toList
    [("a".toList, "{{b}}".toList), ("b".toList, "x".toList)] = "x".toList := by decide
example : SubstituteParams "{{a}}".toList
    [("b".toList, "x".toList), ("a".toList, "{{b}}".toList)] = "{{b}}".toList := by decide

/-! ### Scanner lemmas -/

theorem findMatchesF_congr : ∀ (f₁ : Nat) (f₂ : Nat) (s : Str),
    s.length ≤ f₁ → s.length ≤ f₂ → findMatchesF f₁ s = findMatchesF f₂ s := by
  intro f₁
  induction f₁ with
  | zero =>
    intro f₂ s h1 _
    have : s = [] := List.length_eq_zero.mp (Nat.le_zero.mp h1)
    subst this
    cases f₂ <;> rfl
  | succ f ih =>
    intro f₂ s h1 h2
    cases s with
    | nil => cases f₂ <;> rfl
    | cons c rest =>
      cases f₂ with
      | zero => simp at h2
      | succ g =>
        simp only [findMatchesF]
        cases htm : tryMatch (c :: rest) with
        | some v =>
          obtain ⟨b, n, r⟩ := v
          have hr := tryMatch_length htm
          simp only [List.length_cons] at h1 h2 hr
          exact congrArg _ (ih g r (by omega) (by omega))
        | none =>
          simp only [List.length_cons] at h1 h2
          exact ih g rest (by omega) (by omega)

theorem findMatches_cons_none {c : Char} {rest : Str}
    (h : tryMatch (c :: rest) = none) :
    findMatches (c :: rest) = findMatches rest := by
  show findMatchesF (rest.length + 1) (c :: rest) = _
  simp only [findMatchesF, h]
  rfl

theorem findMatches_cons_some {c : Char} {rest : Str} {b : Bool} {n r : Str}
    (h : tryMatch (c :: rest) = some (b, n, r)) :
    findMatches (c :: rest) = (b, n) :: findMatches r := by
  show findMatchesF (rest.length + 1) (c :: rest) = _
  simp only [findMatchesF, h]
  have hr := tryMatch_length h
  simp only [List.length_cons] at hr
  exact congrArg _ (findMatchesF_congr _ _ r (by omega) (by omega))

theorem tryMatch_none_of_head {c : Char} (hc : c ≠ '{') (t : Str) :
    tryMatch (c :: t) = none := by
  unfold tryMatch
  split
  · rename_i h
    injection h with h1 _
    exact absurd h1 hc
  · rename_i h
    injection h with h1 _
    exact absurd h1 hc
  · rfl

theorem findMatches_braceFree_append {l : Str} (hl : braceFree l = true) (r : Str) :
    findMatches (l ++ r) = findMatches r := by
  induction l with
  | nil => rfl
  | cons c l ih =>
    simp only [braceFree, List.all_cons, Bool.and_eq_true, Bool.not_eq_true'] at hl
    have hc : c ≠ '{' := by
      intro hc
      subst hc
      simp [isBrace] at hl
    rw [List.cons_append, findMatches_cons_none (tryMatch_none_of_head hc _)]
    exact ih (by simp [braceFree, hl.2])

theorem findMatches_braceFree {l : Str} (hl : braceFree l = true) :
    findMatches l = [] := by
  have := findMatches_braceFree_append hl []
  simpa using this

/-! ### Brace-well-formed templates: an alternation of brace-free literals
and placeholder tokens.  This is the side condition under which the
substitution round-trip (§8 of the spec) actually holds. -/

/-- The literal pattern `{{name}}` (`bang = false`) or `{{!name}}`
(`bang = true`), exactly as `runner.SubstituteParams` builds it. -/
def patt (b : Bool) (n : Str) : Str :=
  '{' :: '{' :: (if b then '!' :: n else n) ++ ['}', '}']

inductive Seg where
  | lit : Str → Seg
  | ph : Bool → Str → Seg
deriving DecidableEq, Repr

def Seg.render : Seg → Str
  | .lit s => s
  | .ph b n => patt b n

def renderSegs (segs : List Seg) : Str := (segs.map Seg.render).flatten

/-- A literal segment is brace-free; a placeholder name is a nonempty run
of word characters. -/
def ValidSeg : Seg → Prop
  | .lit s => braceFree s = true
  | .ph _ n => n ≠ [] ∧ n.all wordChar = true

instance : DecidablePred ValidSeg := fun s => by
  cases s <;> simp only [ValidSeg] <;> infer_instance

/-- Every brace character of `t` belongs to a placeholder occurrence. -/
def WellFormed (t : Str) : Prop :=
  ∃ segs : List Seg, (∀ s ∈ segs, ValidSeg s) ∧ renderSegs segs = t

theorem takeWhile_all_append {p : Char → Bool} {n : Str} {d : Char}
    (hn : ∀ c ∈ n, p c = true) (hd : p d = false) (t : Str) :
    (n ++ d :: t).takeWhile p = n ∧ (n ++ d :: t).dropWhile p = d :: t := by
  induction n with
  | nil => simp [List.takeWhile, List.dropWhile, hd]
  | cons c m ih =>
    have hc : p c = true := hn c (by simp)
    have := ih (fun x hx => hn x (by simp [hx]))
    simp [List.takeWhile, List.dropWhile, hc, this.1, this.2]

theorem tryTail_word {b : Bool} {n : Str} (hne : n ≠ []) (hw : n.all wordChar = true)
    (r : Str) : tryTail b (n ++ '}' :: '}' :: r) = some (b, n, r) := by
  have hall : ∀ c ∈ n, wordChar c = true := by
    intro c hc
    exact List.all_eq_true.mp hw c hc
  have hbr : wordChar '}' = false := by decide
  have h := takeWhile_all_append hall hbr ('}' :: r)
  unfold tryTail
  rw [h.2, h.1]
  simp [hne]

theorem patt_append (b : Bool) (n r : Str) :
    patt b n ++ r = '{' :: '{' :: ((if b then '!' :: n else n) ++ ('}' :: '}' :: r)) := by
  simp [patt]

theorem tryMatch_patt {b : Bool} {n : Str} (hne : n ≠ []) (hw : n.all wordChar = true)
    (r : Str) : tryMatch (patt b n ++ r) = some (b, n, r) := by
  rw [patt_append]
  cases b with
  | true =>
    show tryMatch ('{' :: '{' :: '!' :: (n ++ '}' :: '}' :: r)) = _
    exact tryTail_word hne hw r
  | false =>
    obtain ⟨nc, n', rfl⟩ : ∃ c t, n = c :: t := by
      cases n with
      | nil => exact absurd rfl hne
      | cons c t => exact ⟨c, t, rfl⟩
    have hword : wordChar nc = true := by
      simp only [List.all_cons, Bool.and_eq_true] at hw
      exact hw.1
    have hnc : nc ≠ '!' := by
      intro h
      rw [h] at hword
      exact absurd hword (by decide)
    show tryMatch ('{' :: '{' :: nc :: (n' ++ '}' :: '}' :: r)) = _
    unfold tryMatch
    split
    · rename_i heq
      injection heq with _ heq
      injection heq with _ heq
      injection heq with h3 _
      exact absurd h3 hnc
    · rename_i heq
      injection heq with _ heq
      injection heq with _ heq
      rw [← heq]
      exact tryTail_word hne hw r
    · rename_i hno
      exact absurd rfl (hno _)

theorem findMatches_patt_append {b : Bool} {n : Str} (hne : n ≠ [])
    (hw : n.all wordChar = true) (r : Str) :
    findMatches (patt b n ++ r) = (b, n) :: findMatches r := by
  have htm := @tryMatch_patt b n hne hw r
  rw [patt_append] at htm ⊢
  exact findMatches_cons_some htm

def phOf : Seg → Option (Bool × Str)
  | .ph b n => some (b, n)
  | .lit _ => none

/-- On a brace-well-formed template the regex scan finds exactly the
placeholder segments, in order. -/
theorem findMatches_renderSegs {segs : List Seg} (h : ∀ s ∈ segs, ValidSeg s) :
    findMatches (renderSegs segs) = segs.filterMap phOf := by
  induction segs with
  | nil => rfl
  | cons s rest ih =>
    have hs := h s (by simp)
    have hrest : ∀ x ∈ rest, ValidSeg x := fun x hx => h x (by simp [hx])
    cases s with
    | lit l =>
      have hr : renderSegs (.lit l :: rest) = l ++ renderSegs rest := by
        simp [renderSegs, Seg.render]
      rw [hr, findMatches_braceFree_append hs, ih hrest]
      simp [phOf]
    | ph b n =>
      have hr : renderSegs (.ph b n :: rest) = patt b n ++ renderSegs rest := by
        simp [renderSegs, Seg.render]
      obtain ⟨hne, hw⟩ := hs
      rw [hr, findMatches_patt_append hne hw, ih hrest, List.filterMap_cons]
      simp [phOf]

/-! ### Extraction lemmas: dedup in first-occurrence order, sticky-by-first
sensitivity. -/

/-- Index of the first occurrence of `a` in `l` (`l.length` if absent). -/
def firstIdx (a : Str) : List Str → Nat
  | [] => 0
  | x :: rest => if x = a then 0 else firstIdx a rest + 1

/-- The `!` flag of the first match carrying a given name. -/
def firstBang (n : Str) : List (Bool × Str) → Option Bool
  | [] => none
  | (b, m) :: rest => if m = n then some b else firstBang n rest

theorem extractGo_name_mem : ∀ (ms : List (Bool × Str)) (seen : List Str) (n : Str),
    n ∈ (extractGo ms seen).map ParamInfo.Name ↔ n ∈ ms.map Prod.snd ∧ n ∉ seen := by
  intro ms
  induction ms with
  | nil => simp [extractGo]
  | cons m rest ih =>
    intro seen n
    obtain ⟨b, nm⟩ := m
    simp only [extractGo]
    by_cases hm : nm ∈ seen
    · simp only [if_pos hm, ih]
      constructor
      · rintro ⟨h1, h2⟩
        exact ⟨by simp [h1], h2⟩
      · rintro ⟨h1, h2⟩
        simp only [List.map_cons, List.mem_cons] at h1
        rcases h1 with rfl | h1
        · exact absurd hm h2
        · exact ⟨h1, h2⟩
    · simp only [if_neg hm, List.map_cons, List.mem_cons, ih]
      constructor
      · rintro (rfl | ⟨h1, h2⟩)
        · exact ⟨by simp, hm⟩
        · refine ⟨by simp [h1], ?_⟩
          intro hsn
          exact h2 (by simp [hsn])
      · rintro ⟨h1, h2⟩
        rcases h1 with rfl | h1
        · exact Or.inl rfl
        · by_cases hn : n = nm
          · exact Or.inl hn
          · exact Or.inr ⟨h1, by simp [hn, h2]⟩

theorem extractGo_nodup : ∀ (ms : List (Bool × Str)) (seen : List Str),
    ((extractGo ms seen).map ParamInfo.Name).Nodup := by
  intro ms
  induction ms with
  | nil => simp [extractGo]
  | cons m rest ih =>
    intro seen
    obtain ⟨b, nm⟩ := m
    simp only [extractGo]
    by_cases hm : nm ∈ seen
    · simp only [if_pos hm]
      exact ih seen
    · simp only [if_neg hm, List.map_cons, List.nodup_cons]
      refine ⟨?_, ih (nm :: seen)⟩
      intro hmem
      have := (extractGo_name_mem rest (nm :: seen) nm).mp hmem
      exact this.2 (by simp)

theorem extractGo_firstBang : ∀ (ms : List (Bool × Str)) (seen : List Str)
    (p : ParamInfo), p ∈ extractGo ms seen →
    firstBang p.Name ms = some p.Sensitive := by
  intro ms
  induction ms with
  | nil => simp [extractGo]
  | cons m rest ih =>
    intro seen p hp
    obtain ⟨b, nm⟩ := m
    simp only [extractGo] at hp
    by_cases hm : nm ∈ seen
    · rw [if_pos hm] at hp
      have hne : p.Name ≠ nm := by
        intro h
        have := (extractGo_name_mem rest seen p.Name).mp (List.mem_map_of_mem _ hp)
        exact this.2 (h ▸ hm)
      simp only [firstBang]
      rw [if_neg (Ne.symm hne)]
      exact ih seen p hp
    · rw [if_neg hm] at hp
      rcases List.mem_cons.mp hp with rfl | hp
      · simp [firstBang]
      · have hne : p.Name ≠ nm := by
          intro h
          have := (extractGo_name_mem rest (nm :: seen) p.Name).mp
            (List.mem_map_of_mem _ hp)
          exact this.2 (by simp [h])
        simp only [firstBang]
        rw [if_neg (Ne.symm hne)]
        exact ih (nm :: seen) p hp

theorem extractGo_order : ∀ (ms : List (Bool × Str)) (seen : List Str),
    List.Pairwise (fun a b => firstIdx a (ms.map Prod.snd) < firstIdx b (ms.map Prod.snd))
      ((extractGo ms seen).map ParamInfo.Name) := by
  intro ms
  induction ms with
  | nil => simp [extractGo]
  | cons m rest ih =>
    intro seen
    obtain ⟨b, nm⟩ := m
    simp only [extractGo, List.map_cons]
    by_cases hm : nm ∈ seen
    · simp only [if_pos hm]
      refine (ih seen).imp_of_mem ?_
      intro a c ha hc hlt
      have hane : a ≠ nm := by
        intro h
        have := (extractGo_name_mem rest seen a).mp ha
        exact this.2 (h ▸ hm)
      have hcne : c ≠ nm := by
        intro h
        have := (extractGo_name_mem rest seen c).mp hc
        exact this.2 (h ▸ hm)
      simp only [firstIdx]
      rw [if_neg (Ne.symm hane), if_neg (Ne.symm hcne)]
      omega
    · simp only [if_neg hm, List.map_cons, List.pairwise_cons]
      constructor
      · intro c hc
        have hcmem := (extractGo_name_mem rest (nm :: seen) c).mp hc
        have hcne : c ≠ nm := fun h => hcmem.2 (by simp [h])
        simp only [firstIdx]
        rw [if_neg (Ne.symm hcne)]
        simp
      · refine (ih (nm :: seen)).imp_of_mem ?_
        intro a c ha hc hlt
        have hane : a ≠ nm := fun h =>
          ((extractGo_name_mem rest (nm :: seen) a).mp ha).2 (by simp [h])
        have hcne : c ≠ nm := fun h =>
          ((extractGo_name_mem rest (nm :: seen) c).mp hc).2 (by simp [h])
        simp only [firstIdx]
        rw [if_neg (Ne.symm hane), if_neg (Ne.symm hcne)]
        omega

/-- Association-list lookup, modelling Go map access `v, ok := m[k]`. -/
def alookup (k : Str) : List (Str × Str) → Option Str
  | [] => none
  | (k', v) :: rest => if k' = k then some v else alookup k rest

theorem alookup_some_mem {k v : Str} : ∀ {l : List (Str × Str)},
    alookup k l = some v → (k, v) ∈ l := by
  intro l
  induction l with
  | nil => simp [alookup]
  | cons p rest ih =>
    obtain ⟨k', v'⟩ := p
    simp only [alookup]
    by_cases hk : k' = k
    · subst hk
      rw [if_pos rfl]
      rintro h
      injection h with h
      simp [h]
    · rw [if_neg hk]
      intro h
      simp [ih h]

/-- The `toSave` map built in `ui.executeCommand`: the values supplied for
the non-sensitive extracted parameters, passed to `db.SaveLastParams`. -/
def savedParams (infos : List ParamInfo) (values : List (Str × Str)) : List (Str × Str) :=
  infos.filterMap (fun p =>
    if p.Sensitive then none
    else (alookup p.Name values).map (fun v => (p.Name, v)))

/-- C7: `ExtractParams` returns each distinct placeholder name exactly once,
in order of first occurrence among the regex matches, and on
`"cp {{src}} {{dst}} {{src}}"` yields exactly `[src, dst]`. -/
theorem extractParams_distinct_first_occurrence :
    (∀ t : Str,
      ((ExtractParams t).map ParamInfo.Name).Nodup ∧
      (∀ n, n ∈ (ExtractParams t).map ParamInfo.Name ↔ n ∈ (findMatches t).map Prod.snd) ∧
      List.Pairwise (fun a b => firstIdx a ((findMatches t).map Prod.snd) <
        firstIdx b ((findMatches t).map Prod.snd)) ((ExtractParams t).map ParamInfo.Name)) ∧
    ExtractParams "cp {{src}} {{dst}} {{src}}".toList =
      [⟨"src".toList, false⟩, ⟨"dst".toList, false⟩] := by
  constructor
  · intro t
    refine ⟨extractGo_nodup _ _, ?_, extractGo_order _ _⟩
    intro n
    rw [show ExtractParams t = extractGo (findMatches t) [] from rfl, extractGo_name_mem]
    simp
  · decide

/-- C2 counterexample: in `"login {{user}} {{!user}}"` the name `user` has a
sensitive occurrence, yet `ExtractParams` marks it non-sensitive (the flag
comes from the first occurrence, not from any occurrence). -/
theorem extractParams_sticky_counterexample :
    ExtractParams "login {{user}} {{!user}}".toList = [⟨"user".toList, false⟩] ∧
    ExtractParams "login {{user}} {{!user}}".toList ≠ [⟨"user".toList, true⟩] := by
  exact ⟨by decide, by decide⟩

/-- C2 amended: the sensitivity flag of each extracted name is the flag of
the first occurrence of that name; `"login {{user}} {{!user}}"` yields
`[{user, false}]`. -/
theorem extractParams_sensitivity_first_occurrence :
    (∀ t : Str, ∀ p ∈ ExtractParams t,
      firstBang p.Name (findMatches t) = some p.Sensitive) ∧
    ExtractParams "login {{user}} {{!user}}".toList = [⟨"user".toList, false⟩] :=
  ⟨fun _ p hp => extractGo_firstBang _ _ p hp, by decide⟩

theorem extractParams_sensitivity_first_occurrence_witness :
    ((⟨"user".toList, true⟩ : ParamInfo) ∈ ExtractParams "login {{!user}} {{user}}".toList) ∧
    firstBang "user".toList (findMatches "login {{!user}} {{user}}".toList) = some true :=
  ⟨by decide,
    extractParams_sensitivity_first_occurrence.1 _ ⟨"user".toList, true⟩ (by decide)⟩

/-- C1 counterexample: for the template `"login {{user}} {{!user}}"` the
name `user` has a sensitive occurrence, yet the value supplied for it is
included in the mapping passed to `SaveLastParams`. -/
theorem executeCommand_persists_sensitive_occurrence :
    (true, "user".toList) ∈ findMatches "login {{user}} {{!user}}".toList ∧
    alookup "user".toList (savedParams (ExtractParams "login {{user}} {{!user}}".toList)
      [("user".toList, "alice".toList)]) = some "alice".toList := by
  exact ⟨by decide, by decide⟩

/-- C1 amended: a value is excluded from the persisted mapping exactly when
the extracted flag is sensitive, i.e. when the FIRST occurrence of the name
is `{{!name}}`: for every such name, nothing is persisted under it. -/
theorem savedParams_omits_first_occurrence_sensitive :
    ∀ (t : Str) (values : List (Str × Str)) (n : Str),
      firstBang n (findMatches t) = some true →
      alookup n (savedParams (ExtractParams t) values) = none := by
  intro t values n hfb
  cases halk : alookup n (savedParams (ExtractParams t) values) with
  | none => rfl
  | some v =>
    exfalso
    have hmem := alookup_some_mem halk
    simp only [savedParams, List.mem_filterMap] at hmem
    obtain ⟨p, hp, hcond⟩ := hmem
    by_cases hs : p.Sensitive
    · rw [if_pos hs] at hcond
      exact Option.noConfusion hcond
    · rw [if_neg hs] at hcond
      have hname : p.Name = n := by
        cases hv : alookup p.Name values with
        | none => rw [hv] at hcond; exact Option.noConfusion hcond
        | some w =>
          rw [hv] at hcond
          simp at hcond
          exact hcond.1
      have := extractGo_firstBang _ _ p hp
      rw [hname, hfb] at this
      injection this with this
      rw [← this] at hs
      exact hs rfl

theorem savedParams_omits_first_occurrence_sensitive_witness :
    firstBang "user".toList (findMatches "login {{!user}} {{user}}".toList) = some true ∧
    alookup "user".toList (savedParams (ExtractParams "login {{!user}} {{user}}".toList)
      [("user".toList, "alice".toList)]) = none :=
  ⟨by decide, savedParams_omits_first_occurrence_sensitive _ _ _ (by decide)⟩

/-! ### ReplaceAll lemmas -/

theorem isPrefixOf_char_iff {l₁ l₂ : List Char} : l₁.isPrefixOf l₂ ↔ l₁ <+: l₂ :=
  List.isPrefixOf_iff_prefix

theorem raGoF_congr (o : Char) (os new : Str) : ∀ (f₁ f₂ : Nat) (s : Str),
    s.length ≤ f₁ → s.length ≤ f₂ → raGoF o os new f₁ s = raGoF o os new f₂ s := by
  intro f₁
  induction f₁ with
  | zero =>
    intro f₂ s h1 _
    have : s = [] := List.length_eq_zero.mp (Nat.le_zero.mp h1)
    subst this
    cases f₂ <;> rfl
  | succ f ih =>
    intro f₂ s h1 h2
    cases s with
    | nil => cases f₂ <;> rfl
    | cons c rest =>
      cases f₂ with
      | zero => simp at h2
      | succ g =>
        simp only [raGoF]
        simp only [List.length_cons] at h1 h2
        by_cases hp : (o :: os).isPrefixOf (c :: rest)
        · rw [if_pos hp, if_pos hp]
          have hlen : (rest.drop os.length).length ≤ rest.length := by
            rw [List.length_drop]
            omega
          exact congrArg _ (ih g _ (by omega) (by omega))
        · rw [if_neg hp, if_neg hp]
          exact congrArg _ (ih g rest (by omega) (by omega))

theorem replaceAll_nil (old v : Str) : replaceAll [] old v = [] := by
  cases old <;> rfl

theorem replaceAll_cons_nomatch {o c : Char} {os s : Str}
    (h : ¬ (o :: os) <+: (c :: s)) (v : Str) :
    replaceAll (c :: s) (o :: os) v = c :: replaceAll s (o :: os) v := by
  show raGoF o os v (s.length + 1) (c :: s) = _
  simp only [raGoF]
  rw [if_neg (fun hb => h (isPrefixOf_char_iff.mp hb))]
  rfl

theorem replaceAll_head_match (o : Char) (os r v : Str) :
    replaceAll ((o :: os) ++ r) (o :: os) v = v ++ replaceAll r (o :: os) v := by
  show raGoF o os v ((os ++ r).length + 1) (o :: (os ++ r)) = _
  simp only [raGoF]
  rw [if_pos (isPrefixOf_char_iff.mpr (by exact ⟨r, rfl⟩))]
  rw [List.drop_left]
  simp only [List.length_append]
  exact congrArg _ (raGoF_congr o os v _ _ r (by omega) (by omega))

theorem replaceAll_skip_append {o : Char} {os l : Str}
    (hl : ∀ c ∈ l, c ≠ o) (r v : Str) :
    replaceAll (l ++ r) (o :: os) v = l ++ replaceAll r (o :: os) v := by
  induction l with
  | nil => rfl
  | cons c t ih =>
    have hc : c ≠ o := hl c (by simp)
    have hnp : ¬ (o :: os) <+: (c :: (t ++ r)) := by
      intro hp
      obtain ⟨w, hw⟩ := hp
      injection hw with h1 _
      exact hc h1.symm
    rw [List.cons_append, replaceAll_cons_nomatch hnp,
      ih (fun x hx => hl x (by simp [hx])), List.cons_append]

/-- Word-boundary disambiguation: if `n ++ '}' :: u` is a prefix of
`m ++ '}' :: w` and both `n` and `m` are runs of word characters, the runs
must coincide. -/
theorem word_prefix_eq : ∀ {n m : Str}, n.all wordChar = true → m.all wordChar = true →
    ∀ {u w : Str}, (n ++ '}' :: u) <+: (m ++ '}' :: w) → n = m := by
  intro n
  induction n with
  | nil =>
    intro m _ hm u w hp
    cases m with
    | nil => rfl
    | cons c t =>
      obtain ⟨z, hz⟩ := hp
      simp only [List.nil_append, List.cons_append, List.cons.injEq] at hz
      have : wordChar c = true := by
        simp only [List.all_cons, Bool.and_eq_true] at hm
        exact hm.1
      rw [← hz.1] at this
      exact absurd this (by decide)
  | cons c t ih =>
    intro m hn hm u w hp
    cases m with
    | nil =>
      obtain ⟨z, hz⟩ := hp
      simp only [List.cons_append, List.nil_append, List.cons.injEq] at hz
      have : wordChar c = true := by
        simp only [List.all_cons, Bool.and_eq_true] at hn
        exact hn.1
      rw [hz.1] at this
      exact absurd this (by decide)
    | cons d s =>
      obtain ⟨z, hz⟩ := hp
      simp only [List.cons_append, List.cons.injEq] at hz
      have hcd : c = d := hz.1
      have htl : (t ++ '}' :: u) <+: (s ++ '}' :: w) := ⟨z, hz.2⟩
      have hn' : t.all wordChar = true := by
        simp only [List.all_cons, Bool.and_eq_true] at hn
        exact hn.2
      have hm' : s.all wordChar = true := by
        simp only [List.all_cons, Bool.and_eq_true] at hm
        exact hm.2
      rw [hcd, ih hn' hm' htl]

theorem wordChar_ne {c : Char} (h : wordChar c = true) :
    c ≠ '{' ∧ c ≠ '}' ∧ c ≠ '!' := by
  refine ⟨?_, ?_, ?_⟩ <;> intro he <;> rw [he] at h <;> exact absurd h (by decide)

/-- Two placeholder patterns with different `(bang, name)` never align: the
pattern of one is not a prefix of the rendering of the other (followed by
anything). -/
theorem patt_no_overlap {b b' : Bool} {n n' : Str}
    (hn : n.all wordChar = true) (hn'ne : n' ≠ []) (hn' : n'.all wordChar = true)
    (hne : ¬(b = b' ∧ n = n')) (r : Str) :
    ¬ (patt b n <+: (patt b' n' ++ r)) := by
  intro hp
  rw [patt_append] at hp
  unfold patt at hp
  obtain ⟨z, hz⟩ := hp
  simp only [List.cons_append, List.cons.injEq] at hz
  have hmid : ((if b then '!' :: n else n) ++ ['}', '}']) ++ z =
      (if b' then '!' :: n' else n') ++ ('}' :: '}' :: r) := hz.2.2
  rw [List.append_assoc] at hmid
  have hmid' : (if b then '!' :: n else n) ++ ('}' :: '}' :: z) =
      (if b' then '!' :: n' else n') ++ ('}' :: '}' :: r) := hmid
  obtain ⟨nc, nt, hn'eq⟩ : ∃ c t, n' = c :: t := by
    cases n' with
    | nil => exact absurd rfl hn'ne
    | cons c t => exact ⟨c, t, rfl⟩
  have hncw : wordChar nc = true := by
    rw [hn'eq] at hn'
    simp only [List.all_cons, Bool.and_eq_true] at hn'
    exact hn'.1
  cases b with
  | false =>
    cases b' with
    | false =>
      simp only [Bool.false_eq_true, if_false] at hmid'
      have hpp : (n ++ '}' :: ('}' :: z)) <+: (n' ++ '}' :: ('}' :: r)) := by
        rw [hmid']
      have := word_prefix_eq hn hn' hpp
      exact hne ⟨rfl, this⟩
    | true =>
      simp only [Bool.false_eq_true, if_false, if_true] at hmid'
      cases n with
      | nil =>
        rw [List.nil_append, hn'eq, List.cons_append] at hmid'
        injection hmid' with h1 _
        exact absurd h1 (by decide)
      | cons mc mt =>
        rw [List.cons_append, List.cons_append] at hmid'
        injection hmid' with h1 _
        have : wordChar mc = true := by
          simp only [List.all_cons, Bool.and_eq_true] at hn
          exact hn.1
        rw [h1] at this
        exact absurd this (by decide)
  | true =>
    cases b' with
    | false =>
      simp only [Bool.false_eq_true, if_false, if_true] at hmid'
      rw [List.cons_append, hn'eq, List.cons_append] at hmid'
      injection hmid' with h1 _
      rw [← h1] at hncw
      exact absurd hncw (by decide)
    | true =>
      simp only [if_true] at hmid'
      rw [List.cons_append, List.cons_append] at hmid'
      injection hmid' with _ hmid''
      have hpp : (n ++ '}' :: ('}' :: z)) <+: (n' ++ '}' :: ('}' :: r)) := by
        rw [hmid'']
      have := word_prefix_eq hn hn' hpp
      exact hne ⟨rfl, this⟩

theorem patt_cons (b : Bool) (n : Str) :
    patt b n = '{' :: '{' :: ((if b then '!' :: n else n) ++ ['}', '}']) := rfl

theorem renderSegs_cons (s : Seg) (rest : List Seg) :
    renderSegs (s :: rest) = s.render ++ renderSegs rest := by
  simp [renderSegs]

theorem replaceAll_two_brace_skip {ptail l : Str} (r v : Str) (hlne : l ≠ [])
    (hl : ∀ c ∈ l, c ≠ '{')
    (hnp : ¬ ('{' :: '{' :: ptail) <+: ('{' :: '{' :: (l ++ r))) :
    replaceAll ('{' :: '{' :: (l ++ r)) ('{' :: '{' :: ptail) v =
      '{' :: '{' :: (l ++ replaceAll r ('{' :: '{' :: ptail) v) := by
  obtain ⟨c, l', rfl⟩ : ∃ c t, l = c :: t := by
    cases l with
    | nil => exact absurd rfl hlne
    | cons c t => exact ⟨c, t, rfl⟩
  have h2 : ¬ ('{' :: '{' :: ptail) <+: ('{' :: (c :: l' ++ r)) := by
    rintro ⟨z, hz⟩
    rw [List.cons_append, List.cons_append] at hz
    injection hz with _ hz
    rw [List.cons_append] at hz
    injection hz with h1 _
    exact hl c (by simp) h1.symm
  rw [replaceAll_cons_nomatch hnp, replaceAll_cons_nomatch h2,
    replaceAll_skip_append hl]

theorem replaceAll_ph_skip {b b' : Bool} {n n' : Str}
    (hnw : n.all wordChar = true) (hn'ne : n' ≠ []) (hn'w : n'.all wordChar = true)
    (hne : ¬(b = b' ∧ n = n')) (r v : Str) :
    replaceAll (patt b' n' ++ r) (patt b n) v =
      patt b' n' ++ replaceAll r (patt b n) v := by
  have hl : ∀ c ∈ ((if b' then '!' :: n' else n') ++ ['}', '}']), c ≠ '{' := by
    intro c hc
    rcases List.mem_append.mp hc with hc | hc
    · cases b' with
      | true =>
        simp only [if_pos] at hc
        rcases List.mem_cons.mp hc with rfl | hc
        · decide
        · exact (wordChar_ne (List.all_eq_true.mp hn'w c hc)).1
      | false =>
        simp only [Bool.false_eq_true, if_false] at hc
        exact (wordChar_ne (List.all_eq_true.mp hn'w c hc)).1
    · have : c = '}' := by
        rcases List.mem_cons.mp hc with rfl | hc
        · rfl
        · rcases List.mem_cons.mp hc with rfl | hc
          · rfl
          · exact absurd hc (List.not_mem_nil c)
      rw [this]
      decide
  have hlne : ((if b' then '!' :: n' else n') ++ ['}', '}'] : Str) ≠ [] := by
    cases b' <;> simp
  have hnp := patt_no_overlap hnw hn'ne hn'w hne r
  rw [patt_cons b n, patt_cons b' n'] at hnp ⊢
  rw [List.cons_append, List.cons_append] at hnp ⊢
  exact replaceAll_two_brace_skip r v hlne hl hnp

theorem replaceAll_patt_self (b : Bool) (n : Str) (r v : Str) :
    replaceAll (patt b n ++ r) (patt b n) v = v ++ replaceAll r (patt b n) v := by
  rw [patt_cons]
  exact replaceAll_head_match _ _ r v

/-- The effect of one `ReplaceAll` of `{{n}}` resp. `{{!n}}` on the segment
decomposition: the matching placeholder segments become literal value
segments; everything else is untouched. -/
def replaceSeg (b : Bool) (n v : Str) : Seg → Seg
  | .lit s => .lit s
  | .ph b' n' => if b' = b ∧ n' = n then .lit v else .ph b' n'

theorem replaceAll_renderSegs {segs : List Seg} (hv : ∀ s ∈ segs, ValidSeg s)
    {b : Bool} {n : Str} (hnw : n.all wordChar = true) (v : Str) :
    replaceAll (renderSegs segs) (patt b n) v =
      renderSegs (segs.map (replaceSeg b n v)) := by
  induction segs with
  | nil => exact replaceAll_nil _ _
  | cons s rest ih =>
    have hs := hv s (by simp)
    have hrest : ∀ x ∈ rest, ValidSeg x := fun x hx => hv x (by simp [hx])
    cases s with
    | lit l =>
      rw [renderSegs_cons, List.map_cons]
      show replaceAll (l ++ renderSegs rest) _ v = _
      have hlchars : ∀ c ∈ l, c ≠ '{' := by
        intro c hc hceq
        have := List.all_eq_true.mp hs c hc
        rw [hceq] at this
        exact absurd this (by decide)
      rw [patt_cons, replaceAll_skip_append hlchars, renderSegs_cons]
      rw [← patt_cons, ih hrest]
      rfl
    | ph b' n' =>
      obtain ⟨hn'ne, hn'w⟩ := hs
      rw [renderSegs_cons, List.map_cons]
      by_cases heq : b' = b ∧ n' = n
      · obtain ⟨rfl, rfl⟩ := heq
        show replaceAll (patt b' n' ++ renderSegs rest) (patt b' n') v = _
        rw [replaceAll_patt_self, renderSegs_cons, ih hrest]
        have : replaceSeg b' n' v (.ph b' n') = .lit v := by
          simp [replaceSeg]
        rw [this]
        rfl
      · show replaceAll (patt b' n' ++ renderSegs rest) (patt b n) v = _
        rw [replaceAll_ph_skip hnw hn'ne hn'w (fun h => heq ⟨h.1.symm, h.2.symm⟩),
          renderSegs_cons, ih hrest]
        have : replaceSeg b n v (.ph b' n') = .ph b' n' := by
          simp [replaceSeg, heq]
        rw [this]
        rfl

def substSegStep (n v : Str) (segs : List Seg) : List Seg :=
  (segs.map (replaceSeg false n v)).map (replaceSeg true n v)

def applyPairs (values : List (Str × Str)) (segs : List Seg) : List Seg :=
  values.foldl (fun sg nv => substSegStep nv.1 nv.2 sg) segs

theorem validSeg_replaceSeg {s : Seg} (hs : ValidSeg s) {b : Bool} {n v : Str}
    (hv : braceFree v = true) : ValidSeg (replaceSeg b n v s) := by
  cases s with
  | lit l => exact hs
  | ph b' n' =>
    show ValidSeg (if b' = b ∧ n' = n then Seg.lit v else Seg.ph b' n')
    by_cases h : b' = b ∧ n' = n
    · rw [if_pos h]
      exact hv
    · rw [if_neg h]
      exact hs

theorem validSegs_substSegStep {segs : List Seg} (h : ∀ s ∈ segs, ValidSeg s)
    {n v : Str} (hv : braceFree v = true) :
    ∀ s ∈ substSegStep n v segs, ValidSeg s := by
  intro s hs
  simp only [substSegStep, List.map_map, List.mem_map] at hs
  obtain ⟨x, hx, rfl⟩ := hs
  exact validSeg_replaceSeg (validSeg_replaceSeg (h x hx) hv) hv

theorem substituteParams_cons (t : Str) (n v : Str) (rest : List (Str × Str)) :
    SubstituteParams t ((n, v) :: rest) =
      SubstituteParams (replaceAll (replaceAll t (patt false n) v) (patt true n) v) rest := rfl

/-- Substitution acts segment-wise on a brace-well-formed template. -/
theorem substituteParams_renderSegs : ∀ (values : List (Str × Str)) {segs : List Seg},
    (∀ s ∈ segs, ValidSeg s) →
    (∀ p ∈ values, p.1.all wordChar = true ∧ braceFree p.2 = true) →
    SubstituteParams (renderSegs segs) values = renderSegs (applyPairs values segs) := by
  intro values
  induction values with
  | nil => intro segs _ _; rfl
  | cons nv rest ih =>
    intro segs hsegs hvals
    obtain ⟨n, v⟩ := nv
    have hn : n.all wordChar = true := (hvals (n, v) (by simp)).1
    have hv : braceFree v = true := (hvals (n, v) (by simp)).2
    rw [substituteParams_cons]
    have h1 : replaceAll (renderSegs segs) (patt false n) v =
        renderSegs (segs.map (replaceSeg false n v)) :=
      replaceAll_renderSegs hsegs hn v
    have hvalid1 : ∀ s ∈ segs.map (replaceSeg false n v), ValidSeg s := by
      intro s hs
      obtain ⟨x, hx, rfl⟩ := List.mem_map.mp hs
      exact validSeg_replaceSeg (hsegs x hx) hv
    have h2 : replaceAll (renderSegs (segs.map (replaceSeg false n v))) (patt true n) v =
        renderSegs (substSegStep n v segs) :=
      replaceAll_renderSegs hvalid1 hn v
    rw [h1, h2]
    rw [ih (validSegs_substSegStep hsegs hv) (fun p hp => hvals p (by simp [hp]))]
    rfl

/-- Per-segment form of `applyPairs`. -/
def applySeg (values : List (Str × Str)) (seg : Seg) : Seg :=
  values.foldl (fun s nv => replaceSeg true nv.1 nv.2 (replaceSeg false nv.1 nv.2 s)) seg

theorem applyPairs_eq_map : ∀ (values : List (Str × Str)) (segs : List Seg),
    applyPairs values segs = segs.map (applySeg values) := by
  intro values
  induction values with
  | nil =>
    intro segs
    show segs = segs.map (applySeg [])
    have h : applySeg [] = id := funext fun _ => rfl
    rw [h, List.map_id]
  | cons nv rest ih =>
    intro segs
    show applyPairs rest (substSegStep nv.1 nv.2 segs) = _
    rw [ih]
    simp only [substSegStep, List.map_map]
    rfl

theorem applySeg_lit (values : List (Str × Str)) (s : Str) :
    applySeg values (.lit s) = .lit s := by
  induction values with
  | nil => rfl
  | cons nv rest ih =>
    show applySeg rest (replaceSeg true nv.1 nv.2 (replaceSeg false nv.1 nv.2 (.lit s))) = _
    exact ih

theorem applySeg_ph (values : List (Str × Str)) (b : Bool) (n : Str) :
    applySeg values (.ph b n) = match alookup n values with
      | some v => Seg.lit v
      | none => Seg.ph b n := by
  induction values with
  | nil => rfl
  | cons nv rest ih =>
    obtain ⟨k, v⟩ := nv
    show applySeg rest (replaceSeg true k v (replaceSeg false k v (.ph b n))) = _
    by_cases hk : k = n
    · have hstep : replaceSeg true k v (replaceSeg false k v (.ph b n)) = .lit v := by
        cases b <;> simp [replaceSeg, hk]
      rw [hstep, applySeg_lit]
      simp [alookup, hk]
    · have hstep : replaceSeg true k v (replaceSeg false k v (.ph b n)) = .ph b n := by
        cases b <;> simp [replaceSeg, Ne.symm hk]
      rw [hstep, ih]
      simp only [alookup]
      rw [if_neg hk]

theorem alookup_isSome_of_mem_keys {n : Str} : ∀ {values : List (Str × Str)},
    n ∈ values.map Prod.fst → ∃ v, alookup n values = some v := by
  intro values
  induction values with
  | nil => simp
  | cons p rest ih =>
    obtain ⟨k, v⟩ := p
    intro hmem
    by_cases hk : k = n
    · exact ⟨v, by simp [alookup, hk]⟩
    · simp only [List.map_cons, List.mem_cons] at hmem
      rcases hmem with rfl | hmem
      · exact absurd rfl hk
      · obtain ⟨w, hw⟩ := ih hmem
        exact ⟨w, by simp [alookup, hk, hw]⟩

theorem braceFree_renderSegs {segs : List Seg}
    (h : ∀ s ∈ segs, ∃ l, s = Seg.lit l ∧ braceFree l = true) :
    braceFree (renderSegs segs) = true := by
  induction segs with
  | nil => rfl
  | cons s rest ih =>
    obtain ⟨l, rfl, hbf⟩ := h s (by simp)
    rw [renderSegs_cons]
    show braceFree (l ++ renderSegs rest) = true
    simp only [braceFree, List.all_append, Bool.and_eq_true]
    exact ⟨hbf, ih (fun x hx => h x (by simp [hx]))⟩

/-- C6 amended: on a brace-well-formed template, with brace-free values for
word-character names covering all extracted placeholder names, `SubstituteParams`
leaves no `{{...}}` placeholder token in the output. -/
theorem substituteParams_roundtrip_wellformed :
    ∀ (t : Str) (values : List (Str × Str)), WellFormed t →
      (∀ p ∈ values, p.1.all wordChar = true ∧ braceFree p.2 = true) →
      (∀ pi ∈ ExtractParams t, pi.Name ∈ values.map Prod.fst) →
      findMatches (SubstituteParams t values) = [] := by
  intro t values hwf hvals hsup
  obtain ⟨segs, hvalid, rfl⟩ := hwf
  rw [substituteParams_renderSegs values hvalid hvals, applyPairs_eq_map]
  apply findMatches_braceFree
  apply braceFree_renderSegs
  intro s hs
  obtain ⟨x, hx, rfl⟩ := List.mem_map.mp hs
  cases x with
  | lit l => exact ⟨l, applySeg_lit values l, hvalid _ hx⟩
  | ph b n =>
    have hraw : (b, n) ∈ findMatches (renderSegs segs) := by
      rw [findMatches_renderSegs hvalid]
      exact List.mem_filterMap.mpr ⟨.ph b n, hx, rfl⟩
    have hnm : n ∈ (findMatches (renderSegs segs)).map Prod.snd :=
      List.mem_map.mpr ⟨(b, n), hraw, rfl⟩
    have hext : n ∈ (ExtractParams (renderSegs segs)).map ParamInfo.Name := by
      rw [show ExtractParams (renderSegs segs) =
        extractGo (findMatches (renderSegs segs)) [] from rfl, extractGo_name_mem]
      exact ⟨hnm, by simp⟩
    obtain ⟨pi, hpi, hpin⟩ := List.mem_map.mp hext
    have hkey : n ∈ values.map Prod.fst := hpin ▸ hsup pi hpi
    obtain ⟨v, hv⟩ := alookup_isSome_of_mem_keys hkey
    have hbfv : braceFree v = true := (hvals (n, v) (alookup_some_mem hv)).2
    refine ⟨v, ?_, hbfv⟩
    rw [applySeg_ph, hv]

theorem substituteParams_roundtrip_wellformed_witness :
    WellFormed "ssh {{user}}@{{host}}".toList ∧
    (∀ p ∈ ([("user".toList, "alice".toList), ("host".toList, "box1".toList)] :
        List (Str × Str)), p.1.all wordChar = true ∧ braceFree p.2 = true) ∧
    (∀ pi ∈ ExtractParams "ssh {{user}}@{{host}}".toList,
      pi.Name ∈ ([("user".toList, "alice".toList), ("host".toList, "box1".toList)] :
        List (Str × Str)).map Prod.fst) ∧
    findMatches (SubstituteParams "ssh {{user}}@{{host}}".toList
      [("user".toList, "alice".toList), ("host".toList, "box1".toList)]) = [] := by
  have hwf : WellFormed "ssh {{user}}@{{host}}".toList :=
    ⟨[Seg.lit "ssh ".toList, Seg.ph false "user".toList,
      Seg.lit "@".toList, Seg.ph false "host".toList], by decide, by decide⟩
  exact ⟨hwf, by decide, by decide,
    substituteParams_roundtrip_wellformed _ _ hwf (by decide) (by decide)⟩

/-- C6 counterexample: the template `"{{x{{a}}y}}"` has `a` as its only
extracted placeholder; substituting the plain word value `b` for it yields
`"{{xby}}"`, which still contains a `{{...}}` placeholder token. -/
theorem substituteParams_roundtrip_counterexample :
    (∀ pi ∈ ExtractParams "{{x{{a}}y}}".toList,
      pi.Name ∈ ([("a".toList, "b".toList)] : List (Str × Str)).map Prod.fst) ∧
    findMatches (SubstituteParams "{{x{{a}}y}}".toList [("a".toList, "b".toList)]) ≠ [] :=
  ⟨by decide, by decide⟩

theorem alookup_perm {l₁ l₂ : List (Str × Str)} (hp : l₁.Perm l₂)
    (hnd : (l₁.map Prod.fst).Nodup) (k : Str) : alookup k l₁ = alookup k l₂ := by
  induction hp with
  | nil => rfl
  | cons x hp ih =>
    obtain ⟨xk, xv⟩ := x
    simp only [alookup]
    by_cases hk : xk = k
    · rw [if_pos hk, if_pos hk]
    · rw [if_neg hk, if_neg hk]
      exact ih (by simp only [List.map_cons, List.nodup_cons] at hnd; exact hnd.2)
  | swap x y l =>
    obtain ⟨xk, xv⟩ := x
    obtain ⟨yk, yv⟩ := y
    have hne : yk ≠ xk := by
      simp only [List.map_cons, List.nodup_cons, List.mem_cons] at hnd
      exact fun h => hnd.1 (Or.inl h)
    simp only [alookup]
    by_cases hxy : yk = k
    · have hxk : ¬ xk = k := fun h => hne (hxy.trans h.symm)
      rw [if_pos hxy, if_neg hxk, if_pos hxy]
    · rw [if_neg hxy]
      by_cases hx : xk = k
      · rw [if_pos hx, if_pos hx]
      · rw [if_neg hx, if_neg hx, if_neg hxy]
  | trans hp₁ hp₂ ih₁ ih₂ =>
    rename_i l₁ l₂ l₃
    have hnd₂ : (l₂.map Prod.fst).Nodup :=
      ((hp₁.map Prod.fst).nodup_iff).mp hnd
    rw [ih₁ hnd, ih₂ hnd₂]

/-- C9 amended: on a brace-well-formed template with brace-free values for
word-character names (no duplicate names), the result of `SubstituteParams`
does not depend on the map iteration order.  Without those restrictions it
does: see the counterexample, where a value containing a placeholder token
naming another supplied parameter makes the result order-dependent. -/
theorem substituteParams_map_order_independent :
    ∀ (t : Str) (v₁ v₂ : List (Str × Str)), WellFormed t → v₁.Perm v₂ →
      (v₁.map Prod.fst).Nodup →
      (∀ p ∈ v₁, p.1.all wordChar = true ∧ braceFree p.2 = true) →
      SubstituteParams t v₁ = SubstituteParams t v₂ := by
  intro t v₁ v₂ hwf hperm hnd hvals
  obtain ⟨segs, hvalid, rfl⟩ := hwf
  have hvals₂ : ∀ p ∈ v₂, p.1.all wordChar = true ∧ braceFree p.2 = true :=
    fun p hp => hvals p (hperm.mem_iff.mpr hp)
  rw [substituteParams_renderSegs v₁ hvalid hvals,
    substituteParams_renderSegs v₂ hvalid hvals₂,
    applyPairs_eq_map, applyPairs_eq_map]
  have hfun : applySeg v₁ = applySeg v₂ := funext fun s => by
    cases s with
    | lit l => rw [applySeg_lit, applySeg_lit]
    | ph b n => rw [applySeg_ph, applySeg_ph, alookup_perm hperm hnd n]
  rw [hfun]

theorem substituteParams_map_order_independent_witness :
    WellFormed "ssh {{user}}@{{host}}".toList ∧
    ([("user".toList, "alice".toList), ("host".toList, "box1".toList)] :
      List (Str × Str)).Perm
      [("host".toList, "box1".toList), ("user".toList, "alice".toList)] ∧
    (([("user".toList, "alice".toList), ("host".toList, "box1".toList)] :
      List (Str × Str)).map Prod.fst).Nodup ∧
    (∀ p ∈ ([("user".toList, "alice".toList), ("host".toList, "box1".toList)] :
      List (Str × Str)), p.1.all wordChar = true ∧ braceFree p.2 = true) ∧
    SubstituteParams "ssh {{user}}@{{host}}".toList
      [("user".toList, "alice".toList), ("host".toList, "box1".toList)] =
    SubstituteParams "ssh {{user}}@{{host}}".toList
      [("host".toList, "box1".toList), ("user".toList, "alice".toList)] := by
  have hwf : WellFormed "ssh {{user}}@{{host}}".toList :=
    ⟨[Seg.lit "ssh ".toList, Seg.ph false "user".toList,
      Seg.lit "@".toList, Seg.ph false "host".toList], by decide, by decide⟩
  have hperm : ([("user".toList, "alice".toList), ("host".toList, "box1".toList)] :
      List (Str × Str)).Perm
      [("host".toList, "box1".toList), ("user".toList, "alice".toList)] :=
    List.Perm.swap _ _ _
  exact ⟨hwf, hperm, by decide, by decide,
    substituteParams_map_order_independent _ _ _ hwf hperm (by decide) (by decide)⟩

/-- C9 counterexample: with the value of `a` containing the token `{{b}}`
of the other supplied parameter, processing `a` before `b` yields `"x"`
while processing `b` before `a` yields `"{{b}}"`. -/
theorem substituteParams_map_order_counterexample :
    ([("a".toList, "{{b}}".toList), ("b".toList, "x".toList)] : List (Str × Str)).Perm
      [("b".toList, "x".toList), ("a".toList, "{{b}}".toList)] ∧
    SubstituteParams "{{a}}".toList
      [("a".toList, "{{b}}".toList), ("b".toList, "x".toList)] ≠
    SubstituteParams "{{a}}".toList
      [("b".toList, "x".toList), ("a".toList, "{{b}}".toList)] :=
  ⟨List.Perm.swap _ _ _, by decide⟩

/-! ### Process Streamer (`runner.Run`, `ui.waitForOutput`)

`Run` is concurrent: its two line readers race, so its observable behaviour
is the set of traces sent on the output channel.  `RunTrace env tr` holds
iff `tr` is a possible sequence of messages for an environment `env`
describing the pipe/start outcomes, the two line streams and the exit
result.  The channel is closed after the last message of the trace
(`defer close(output)`). -/

/-- Model of `runner.OutputMsg`. -/
structure OutputMsg where
  Line : Str := []
  IsErr : Bool := false
  Done : Bool := false
  ErrMsg : Str := []
deriving DecidableEq, Repr

/-- The environment of one `Run` call: outcomes of `StdoutPipe`,
`StderrPipe`, `Start`, the two newline-delimited streams, and the error of
`Wait` (`none` for a zero exit). -/
structure RunEnv where
  stdoutPipeErr : Option Str
  stderrPipeErr : Option Str
  startErr : Option Str
  stdoutLines : List Str
  stderrLines : List Str
  waitErr : Option Str

def lineMsg (isErr : Bool) (l : Str) : OutputMsg := { Line := l, IsErr := isErr }

def doneMsg (e : Option Str) : OutputMsg := { Done := true, ErrMsg := e.getD [] }

/-- Order-preserving merge of the two concurrent line streams. -/
inductive Interleaving : List OutputMsg → List OutputMsg → List OutputMsg → Prop
  | nil : Interleaving [] [] []
  | left {x : OutputMsg} {xs ys zs : List OutputMsg} :
      Interleaving xs ys zs → Interleaving (x :: xs) ys (x :: zs)
  | right {y : OutputMsg} {xs ys zs : List OutputMsg} :
      Interleaving xs ys zs → Interleaving xs (y :: ys) (y :: zs)

/-- The possible channel traces of `runner.Run`, mirroring its control flow:
each pipe/start failure short-circuits with a single terminal message; in a
normal run the two readers' line messages interleave and after both streams
end `Wait`'s outcome determines the single terminal message. -/
inductive RunTrace (env : RunEnv) : List OutputMsg → Prop
  | stdoutPipeFail {e : Str} :
      env.stdoutPipeErr = some e → RunTrace env [doneMsg (some e)]
  | stderrPipeFail {e : Str} :
      env.stdoutPipeErr = none → env.stderrPipeErr = some e →
      RunTrace env [doneMsg (some e)]
  | startFail {e : Str} :
      env.stdoutPipeErr = none → env.stderrPipeErr = none → env.startErr = some e →
      RunTrace env [doneMsg (some e)]
  | normal {body : List OutputMsg} :
      env.stdoutPipeErr = none → env.stderrPipeErr = none → env.startErr = none →
      Interleaving (env.stdoutLines.map (lineMsg false)) (env.stderrLines.map (lineMsg true))
        body →
      RunTrace env (body ++ [doneMsg env.waitErr])

/-- Model of `ui.waitForOutput`: its single receive: on a closed channel (`!ok`, modelled
by an exhausted trace) it yields the synthetic terminal message
`outputMsg{Done: true}` instead of blocking. -/
def waitForOutput : List OutputMsg → OutputMsg × List OutputMsg
  | [] => ({ Done := true }, [])
  | m :: rest => (m, rest)

/-- The consumer loop of `ui.Update`: one `waitForOutput` per message; a
non-terminal message re-issues the wait, the terminal message stops the
loop.  Returns the messages consumed; total by construction, so the loop
terminates on every trace. -/
def reads : List OutputMsg → List OutputMsg
  | [] => [{ Done := true }]
  | m :: rest => if m.Done then [m] else m :: reads rest

theorem interleaving_done_false {xs ys zs : List OutputMsg}
    (h : Interleaving xs ys zs) (hx : ∀ m ∈ xs, m.Done = false)
    (hy : ∀ m ∈ ys, m.Done = false) : ∀ m ∈ zs, m.Done = false := by
  induction h with
  | nil => simp
  | left _ ih =>
    intro m hm
    rcases List.mem_cons.mp hm with rfl | hm
    · exact hx m (by simp)
    · exact ih (fun x hx' => hx x (by simp [hx'])) hy m hm
  | right _ ih =>
    intro m hm
    rcases List.mem_cons.mp hm with rfl | hm
    · exact hy m (by simp)
    · exact ih hx (fun y hy' => hy y (by simp [hy'])) m hm

theorem reads_of_body_done {pre : List OutputMsg} {d : OutputMsg}
    (hpre : ∀ m ∈ pre, m.Done = false) (hd : d.Done = true) :
    reads (pre ++ [d]) = pre ++ [d] := by
  induction pre with
  | nil => simp [reads, hd]
  | cons m rest ih =>
    have hm : m.Done = false := hpre m (by simp)
    rw [List.cons_append]
    show reads (m :: (rest ++ [d])) = m :: (rest ++ [d])
    simp only [reads, hm, Bool.false_eq_true, if_false]
    exact congrArg _ (ih (fun x hx => hpre x (by simp [hx])))

/-- C3: every possible trace of `Run` carries exactly one terminal message,
it is the last message, all messages before it are line messages, and the
consumer loop consumes exactly the trace and stops at the terminal message;
reading the closed channel yields the synthetic terminal message. -/
theorem run_exactly_one_terminal :
    ∀ (env : RunEnv) (tr : List OutputMsg), RunTrace env tr →
      (tr.filter (fun m => m.Done)).length = 1 ∧
      (∃ pre d, tr = pre ++ [d] ∧ d.Done = true ∧ ∀ m ∈ pre, m.Done = false) ∧
      reads tr = tr ∧
      (waitForOutput []).1.Done = true := by
  intro env tr htr
  have key : ∃ pre d, tr = pre ++ [d] ∧ d.Done = true ∧ ∀ m ∈ pre, m.Done = false := by
    cases htr with
    | stdoutPipeFail h => exact ⟨[], doneMsg _, rfl, rfl, by simp⟩
    | stderrPipeFail h1 h2 => exact ⟨[], doneMsg _, rfl, rfl, by simp⟩
    | startFail h1 h2 h3 => exact ⟨[], doneMsg _, rfl, rfl, by simp⟩
    | normal h1 h2 h3 hint =>
      refine ⟨_, doneMsg env.waitErr, rfl, rfl, ?_⟩
      exact interleaving_done_false hint
        (by intro m hm; obtain ⟨l, _, rfl⟩ := List.mem_map.mp hm; rfl)
        (by intro m hm; obtain ⟨l, _, rfl⟩ := List.mem_map.mp hm; rfl)
  obtain ⟨pre, d, rfl, hd, hpre⟩ := key
  refine ⟨?_, ⟨pre, d, rfl, hd, hpre⟩, reads_of_body_done hpre hd, rfl⟩
  rw [List.filter_append]
  have hpf : pre.filter (fun m => m.Done) = [] := by
    apply List.filter_eq_nil_iff.mpr
    intro m hm
    simp [hpre m hm]
  rw [hpf]
  simp [hd]

theorem run_exactly_one_terminal_witness :
    RunTrace ⟨none, none, none, ["a".toList], ["b".toList], none⟩
      [lineMsg false "a".toList, lineMsg true "b".toList, doneMsg none] ∧
    (([lineMsg false "a".toList, lineMsg true "b".toList, doneMsg none].filter
      (fun m => m.Done)).length = 1 ∧
     (∃ pre d, [lineMsg false "a".toList, lineMsg true "b".toList, doneMsg none] =
        pre ++ [d] ∧ d.Done = true ∧ ∀ m ∈ pre, m.Done = false) ∧
     reads [lineMsg false "a".toList, lineMsg true "b".toList, doneMsg none] =
       [lineMsg false "a".toList, lineMsg true "b".toList, doneMsg none] ∧
     (waitForOutput []).1.Done = true) := by
  have htr : RunTrace ⟨none, none, none, ["a".toList], ["b".toList], none⟩
      [lineMsg false "a".toList, lineMsg true "b".toList, doneMsg none] := by
    have h : ([lineMsg false "a".toList, lineMsg true "b".toList, doneMsg none] :
        List OutputMsg) =
        [lineMsg false "a".toList, lineMsg true "b".toList] ++ [doneMsg none] := rfl
    rw [h]
    refine RunTrace.normal rfl rfl rfl ?_
    exact .left (.right .nil)
  exact ⟨htr, run_exactly_one_terminal _ _ htr⟩

/-! ### Interaction state machine helpers -/

/-- Model of `ui.mode`. -/
inductive Mode where
  | normal | add | edit | delete | param
deriving DecidableEq, Repr

/-- Go's `unicode.IsSpace` (Latin-1 range), as used by `strings.Fields`
and `strings.TrimSpace`. -/
def goIsSpace (c : Char) : Bool :=
  c = ' ' || c = '\t' || c = '\n' || c = '\x0b' || c = '\x0c' || c = '\r' ||
  c = '\x85' || c = '\xa0'

/-- Model of `strings.Fields`: the substrings of `s` separated by runs of space. -/
def fieldsGo : Str → Str → List Str
  | [], acc => if acc = [] then [] else [acc.reverse]
  | c :: rest, acc =>
    if goIsSpace c then
      if acc = [] then fieldsGo rest [] else acc.reverse :: fieldsGo rest []
    else fieldsGo rest (c :: acc)

def fields (s : Str) : List Str := fieldsGo s []

/-- Insertion into a Go map: a later assignment to an existing key
overwrites it. -/
def mapInsert (m : List (Str × Str)) (k v : Str) : List (Str × Str) :=
  if (alookup k m).isSome then m.map (fun p => if p.1 = k then (k, v) else p)
  else m ++ [(k, v)]

/-- Model of `ui.parseInlineParams`: splits the line on whitespace
(`strings.Fields`) and each token at its first `=` (`strings.Index`,
accepted only when the index is positive). -/
def parseInlineParams (input : Str) : List (Str × Str) :=
  (fields input).foldl (fun result part =>
    match part.findIdx? (fun c => c == '=') with
    | some idx =>
      if idx > 0 then mapInsert result (part.take idx) (part.drop (idx + 1))
      else result
    | none => result) []

example : alookup "user".toList (parseInlineParams "user=alice host=box1".toList) =
    some "alice".toList := by decide
example : alookup "host".toList (parseInlineParams "user=alice host=box1".toList) =
    some "box1".toList := by decide
example : alookup "host".toList (parseInlineParams "user=alice".toList) = none := by decide
example : alookup "x".toList (parseInlineParams "=v x=1".toList) = some "1".toList := by decide

/-- Model of `strings.Join`. -/
def strJoin (sep : Str) : List Str → Str
  | [] => []
  | [x] => x
  | x :: rest => x ++ sep ++ strJoin sep rest

/-- The observable outcome of the `"enter"` branch of `ui.updateParam`. -/
structure ParamSubmit where
  mode : Mode
  err : Str
  started : Bool
deriving Repr

/-- The `"enter"` branch of `ui.updateParam`: parse the inline line,
collect the required names missing from the parsed mapping; if any, set the
error message and stay (no `executeCommand`); otherwise proceed to
`executeCommand` (which switches to Normal mode and starts the process). -/
def updateParamEnter (paramInfos : List ParamInfo) (inputVal : Str) : ParamSubmit :=
  let parsed := parseInlineParams inputVal
  let missing :=
    (paramInfos.filter (fun p => (alookup p.Name parsed).isNone)).map ParamInfo.Name
  if missing ≠ [] then
    { mode := .param, err := "Missing params: ".toList ++ strJoin ", ".toList missing,
      started := false }
  else
    { mode := .normal, err := [], started := true }

/-- C4: if a required placeholder name is absent from the parsed mapping,
the submission is rejected with a missing-parameters message, the mode
stays `Param`, and no process is started. -/
theorem updateParam_missing_rejects :
    ∀ (infos : List ParamInfo) (inputVal : Str),
      (∃ p ∈ infos, alookup p.Name (parseInlineParams inputVal) = none) →
      (updateParamEnter infos inputVal).mode = Mode.param ∧
      (updateParamEnter infos inputVal).started = false ∧
      "Missing params: ".toList <+: (updateParamEnter infos inputVal).err := by
  intro infos inputVal hmiss
  obtain ⟨p, hp, hnone⟩ := hmiss
  have hne : (infos.filter
      (fun q => (alookup q.Name (parseInlineParams inputVal)).isNone)).map
        ParamInfo.Name ≠ [] := by
    have hmem : p ∈ infos.filter
        (fun q => (alookup q.Name (parseInlineParams inputVal)).isNone) :=
      List.mem_filter.mpr ⟨hp, by simp [hnone]⟩
    intro h
    rw [List.map_eq_nil_iff] at h
    rw [h] at hmem
    exact List.not_mem_nil p hmem
  have heq : updateParamEnter infos inputVal =
      { mode := .param,
        err := "Missing params: ".toList ++ strJoin ", ".toList
          ((infos.filter
            (fun q => (alookup q.Name (parseInlineParams inputVal)).isNone)).map
              ParamInfo.Name),
        started := false } := by
    unfold updateParamEnter
    rw [if_pos hne]
  rw [heq]
  exact ⟨rfl, rfl, ⟨_, rfl⟩⟩

theorem updateParam_missing_rejects_witness :
    (∃ p ∈ [(⟨"user".toList, false⟩ : ParamInfo), ⟨"host".toList, false⟩],
      alookup p.Name (parseInlineParams "user=alice".toList) = none) ∧
    (updateParamEnter [⟨"user".toList, false⟩, ⟨"host".toList, false⟩]
      "user=alice".toList).mode = Mode.param ∧
    (updateParamEnter [⟨"user".toList, false⟩, ⟨"host".toList, false⟩]
      "user=alice".toList).started = false ∧
    "Missing params: ".toList <+: (updateParamEnter [⟨"user".toList, false⟩,
      ⟨"host".toList, false⟩] "user=alice".toList).err := by
  have h : ∃ p ∈ [(⟨"user".toList, false⟩ : ParamInfo), ⟨"host".toList, false⟩],
      alookup p.Name (parseInlineParams "user=alice".toList) = none :=
    ⟨⟨"host".toList, false⟩, by decide, by decide⟩
  obtain ⟨h1, h2, h3⟩ := updateParam_missing_rejects _ _ h
  exact ⟨h, h1, h2, h3⟩

/-! ### Store and Add/Edit form submission -/

/-- One row of the `commands` table. -/
structure StoredCmd where
  id : Int
  name : Str
  cmd : Str
  description : Str
deriving DecidableEq, Repr

instance : Inhabited StoredCmd := ⟨⟨0, [], [], []⟩⟩

/-- Go's `strings.TrimSpace`. -/
def trimSpace (s : Str) : Str :=
  ((s.dropWhile goIsSpace).reverse.dropWhile goIsSpace).reverse

/-- SQLite's default `TRIM`, which strips only space characters. -/
def sqlTrim (s : Str) : Str :=
  ((s.dropWhile (fun c => c == ' ')).reverse.dropWhile (fun c => c == ' ')).reverse

/-- Model of `db.IsDuplicateCmd`:
`SELECT COUNT(*) > 0 FROM commands WHERE TRIM(cmd) = TrimSpace(cmd) AND id != excludeID`. -/
def IsDuplicateCmd (store : List StoredCmd) (cmd : Str) (excludeID : Int) : Bool :=
  store.any (fun c => sqlTrim c.cmd == trimSpace cmd && c.id != excludeID)

/-- Model of `db.IsDuplicateName`, same query over the `name` column. -/
def IsDuplicateName (store : List StoredCmd) (name : Str) (excludeID : Int) : Bool :=
  store.any (fun c => sqlTrim c.name == trimSpace name && c.id != excludeID)

structure FormResult where
  err : Option Str
  status : Option Str
  store : List StoredCmd
  mode : Mode
deriving Repr

/-- The `excludeID` argument: `0`, or the id of the command being edited. -/
def excludeOf : Option StoredCmd → Int
  | some c => c.id
  | none => 0

/-- Model of `ui.submitCommandForm`: trim the three fields, reject on empty
name/command, then on a duplicate name, then on a duplicate command
(excluding the command being edited), and only then write to the store and
return to Normal mode.  Store writes are modelled as pure list updates
(`Add` appends a row with the fresh id `newId`; `Update` rewrites the
edited row). -/
def submitCommandForm (m : Mode) (editingCmd : Option StoredCmd)
    (rawName rawCmd rawDesc : Str) (store : List StoredCmd) (newId : Int) : FormResult :=
  if trimSpace rawName = [] ∨ trimSpace rawCmd = [] then
    { err := some "Name and command are required".toList, status := none,
      store := store, mode := m }
  else if IsDuplicateName store (trimSpace rawName) (excludeOf editingCmd) then
    { err := some "A command with this name already exists".toList, status := none,
      store := store, mode := m }
  else if IsDuplicateCmd store (trimSpace rawCmd) (excludeOf editingCmd) then
    { err := some "A command with this exact command already exists".toList,
      status := none, store := store, mode := m }
  else if m = Mode.add then
    { err := none, status := some "Added!".toList,
      store := store ++
        [⟨newId, trimSpace rawName, trimSpace rawCmd, trimSpace rawDesc⟩],
      mode := .normal }
  else
    { err := none, status := some "Updated!".toList,
      store := match editingCmd with
        | some c => store.map (fun x =>
            if x.id = c.id then ⟨c.id, trimSpace rawName, trimSpace rawCmd, trimSpace rawDesc⟩
            else x)
        | none => store,
      mode := .normal }

/-- C5: an empty trimmed name or body, or a store-reported duplicate name
or duplicate body (excluding the edited command), rejects the submission
with a validation message before any store write: the store is unchanged
and the mode is not exited. -/
theorem submitCommandForm_rejects_invalid :
    ∀ (m : Mode) (editingCmd : Option StoredCmd) (rawName rawCmd rawDesc : Str)
      (store : List StoredCmd) (newId : Int),
      (trimSpace rawName = [] ∨ trimSpace rawCmd = [] ∨
       IsDuplicateName store (trimSpace rawName) (excludeOf editingCmd) = true ∨
       IsDuplicateCmd store (trimSpace rawCmd) (excludeOf editingCmd) = true) →
      (submitCommandForm m editingCmd rawName rawCmd rawDesc store newId).err.isSome = true ∧
      (submitCommandForm m editingCmd rawName rawCmd rawDesc store newId).store = store ∧
      (submitCommandForm m editingCmd rawName rawCmd rawDesc store newId).mode = m := by
  intro m editingCmd rawName rawCmd rawDesc store newId hrej
  unfold submitCommandForm
  by_cases h1 : trimSpace rawName = [] ∨ trimSpace rawCmd = []
  · rw [if_pos h1]
    exact ⟨rfl, rfl, rfl⟩
  · rw [if_neg h1]
    have hdup : IsDuplicateName store (trimSpace rawName) (excludeOf editingCmd) = true ∨
        IsDuplicateCmd store (trimSpace rawCmd) (excludeOf editingCmd) = true := by
      rcases hrej with h | h | h | h
      · exact absurd (Or.inl h) h1
      · exact absurd (Or.inr h) h1
      · exact Or.inl h
      · exact Or.inr h
    by_cases h2 : IsDuplicateName store (trimSpace rawName) (excludeOf editingCmd) = true
    · rw [if_pos h2]
      exact ⟨rfl, rfl, rfl⟩
    · rw [if_neg h2]
      have h3 : IsDuplicateCmd store (trimSpace rawCmd) (excludeOf editingCmd) = true :=
        hdup.resolve_left h2
      rw [if_pos h3]
      exact ⟨rfl, rfl, rfl⟩

theorem submitCommandForm_rejects_invalid_witness :
    (trimSpace "deploy".toList = [] ∨ trimSpace " kubectl apply ".toList = [] ∨
     IsDuplicateName [⟨1, "other".toList, "kubectl apply".toList, []⟩]
       (trimSpace "deploy".toList) 0 = true ∨
     IsDuplicateCmd [⟨1, "other".toList, "kubectl apply".toList, []⟩]
       (trimSpace " kubectl apply ".toList) 0 = true) ∧
    (submitCommandForm Mode.add none "deploy".toList " kubectl apply ".toList []
      [⟨1, "other".toList, "kubectl apply".toList, []⟩] 2).err.isSome = true ∧
    (submitCommandForm Mode.add none "deploy".toList " kubectl apply ".toList []
      [⟨1, "other".toList, "kubectl apply".toList, []⟩] 2).store =
      [⟨1, "other".toList, "kubectl apply".toList, []⟩] ∧
    (submitCommandForm Mode.add none "deploy".toList " kubectl apply ".toList []
      [⟨1, "other".toList, "kubectl apply".toList, []⟩] 2).mode = Mode.add := by
  have h : trimSpace "deploy".toList = [] ∨ trimSpace " kubectl apply ".toList = [] ∨
      IsDuplicateName [⟨1, "other".toList, "kubectl apply".toList, []⟩]
        (trimSpace "deploy".toList) 0 = true ∨
      IsDuplicateCmd [⟨1, "other".toList, "kubectl apply".toList, []⟩]
        (trimSpace " kubectl apply ".toList) 0 = true := by decide
  obtain ⟨h1, h2, h3⟩ := submitCommandForm_rejects_invalid Mode.add none _ _ []
    [⟨1, "other".toList, "kubectl apply".toList, []⟩] 2 h
  exact ⟨h, h1, h2, h3⟩

/-! ### Filtering and rendering helpers -/

/-- The slice of `ui.App` state that `filterCommands` reads and writes. -/
structure AppState where
  commands : List StoredCmd
  filtered : List StoredCmd
  cursor : Nat
  query : Str
deriving Repr

/-- Model of `ui.filterCommands`.  Here `find` stands for the black-box `fuzzy.Find`,
given as the ranked list of indices of the matched targets (the fuzzy
library guarantees they index into the target list).  On an empty query the
function returns early with the full list and does NOT touch the cursor;
only the non-empty-query path clamps the cursor. -/
def filterCommands (find : Str → List Str → List Nat) (a : AppState) : AppState :=
  if a.query = [] then { a with filtered := a.commands }
  else
    { a with
      filtered := (find a.query (a.commands.map (fun c => c.name ++ ' ' :: c.cmd))).map
        (fun i => a.commands.getD i default),
      cursor :=
        if ((find a.query (a.commands.map (fun c => c.name ++ ' ' :: c.cmd))).map
            (fun i => a.commands.getD i default)).length ≤ a.cursor then
          ((find a.query (a.commands.map (fun c => c.name ++ ' ' :: c.cmd))).map
            (fun i => a.commands.getD i default)).length - 1
        else a.cursor }

/-- C8 counterexample: with an empty query (the "clearing the query" case
the claim includes), the cursor is not clamped: from a state with one
stored command and cursor 3, re-filtering leaves the cursor at 3, beyond
the bounds of the one-element filtered list. -/
theorem filterCommands_clamp_counterexample :
    (filterCommands (fun _ _ => []) ⟨[default], [], 3, []⟩).filtered ≠ [] ∧
    ¬ ((filterCommands (fun _ _ => []) ⟨[default], [], 3, []⟩).cursor <
        (filterCommands (fun _ _ => []) ⟨[default], [], 3, []⟩).filtered.length) := by
  exact ⟨by decide, by decide⟩

/-- C8 amended: on a non-empty query the cursor is clamped into the new
filtered list's bounds (to zero when the list is empty); on an empty query
the cursor is left unchanged and the bound holds only if the cursor was
already within the full command list's bounds. -/
theorem filterCommands_cursor_bound :
    ∀ (find : Str → List Str → List Nat) (a : AppState),
      (a.query = [] →
        (a.commands ≠ [] → a.cursor < a.commands.length) ∧
        (a.commands = [] → a.cursor = 0)) →
      ((filterCommands find a).filtered ≠ [] →
        (filterCommands find a).cursor < (filterCommands find a).filtered.length) ∧
      ((filterCommands find a).filtered = [] → (filterCommands find a).cursor = 0) := by
  intro find a h
  unfold filterCommands
  by_cases hq : a.query = []
  · rw [if_pos hq]
    exact h hq
  · rw [if_neg hq]
    dsimp only
    constructor
    · intro hne
      by_cases hc : ((find a.query (a.commands.map (fun c => c.name ++ ' ' :: c.cmd))).map
          (fun i => a.commands.getD i default)).length ≤ a.cursor
      · rw [if_pos hc]
        have : ((find a.query (a.commands.map (fun c => c.name ++ ' ' :: c.cmd))).map
            (fun i => a.commands.getD i default)).length ≠ 0 := by
          intro h0
          exact hne (List.length_eq_zero.mp h0)
        omega
      · rw [if_neg hc]
        omega
    · intro hemp
      have h0 : ((find a.query (a.commands.map (fun c => c.name ++ ' ' :: c.cmd))).map
          (fun i => a.commands.getD i default)).length = 0 := by
        rw [hemp]
        rfl
      rw [if_pos (by omega)]
      omega

theorem filterCommands_cursor_bound_witness :
    ((⟨[default, default], [default], 1, "d".toList⟩ : AppState).query = [] →
      ((⟨[default, default], [default], 1, "d".toList⟩ : AppState).commands ≠ [] →
        (1 : Nat) < 2) ∧
      ((⟨[default, default], [default], 1, "d".toList⟩ : AppState).commands = [] →
        (1 : Nat) = 0)) ∧
    ((filterCommands (fun _ _ => [0]) ⟨[default, default], [default], 1, "d".toList⟩).filtered ≠ [] →
      (filterCommands (fun _ _ => [0]) ⟨[default, default], [default], 1, "d".toList⟩).cursor <
      (filterCommands (fun _ _ => [0]) ⟨[default, default], [default], 1,
        "d".toList⟩).filtered.length) ∧
    ((filterCommands (fun _ _ => [0]) ⟨[default, default], [default], 1, "d".toList⟩).filtered = [] →
      (filterCommands (fun _ _ => [0]) ⟨[default, default], [default], 1,
        "d".toList⟩).cursor = 0) := by
  have h : (⟨[default, default], [default], 1, "d".toList⟩ : AppState).query = [] →
      ((⟨[default, default], [default], 1, "d".toList⟩ : AppState).commands ≠ [] →
        (1 : Nat) < 2) ∧
      ((⟨[default, default], [default], 1, "d".toList⟩ : AppState).commands = [] →
        (1 : Nat) = 0) := by decide
  obtain ⟨h1, h2⟩ := filterCommands_cursor_bound (fun _ _ => [0])
    ⟨[default, default], [default], 1, "d".toList⟩ (by decide)
  exact ⟨h, h1, h2⟩

/-- Model of `ui.truncate`: `some` is the returned string; `none` models the runtime
panic of the slice `s[:max-3]` when its bound `max-3` is negative (which
happens whenever `len(s) > max` and `max < 3`). -/
def truncate (s : Str) (max : Int) : Option Str :=
  if (s.length : Int) ≤ max then some s
  else if 0 ≤ max - 3 then some (s.take (max - 3).toNat ++ "...".toList)
  else none

/-- C10 counterexample: at the `renderList` call site
`truncate(cmd.Cmd, a.width-10)` a narrow terminal gives a negative bound:
with `a.width = 6` the call `truncate("docker", -4)` hits the slice
`s[:-7]` and panics (modelled by `none`). -/
theorem truncate_panics_counterexample : truncate "docker".toList (6 - 10) = none := by
  decide

/-- C10 amended: `truncate` is panic-free exactly on the inputs where the
slice bound is in range: for every `s` and `max`, if `len(s) ≤ max` or
`3 ≤ max` it returns a string; in the remaining case (`len(s) > max` and
`max < 3`, reachable from `renderList` on narrow widths) it panics. -/
theorem truncate_total_unless_narrow :
    ∀ (s : Str) (max : Int), (s.length : Int) ≤ max ∨ 3 ≤ max →
      (truncate s max).isSome = true := by
  intro s max h
  unfold truncate
  by_cases h1 : (s.length : Int) ≤ max
  · rw [if_pos h1]
    rfl
  · rw [if_neg h1]
    have h3 : (3 : Int) ≤ max := h.resolve_left h1
    rw [if_pos (by omega)]
    rfl

theorem truncate_total_unless_narrow_witness :
    ((("docker".toList : Str).length : Int) ≤ 3 ∨ (3 : Int) ≤ 3) ∧
    (truncate "docker".toList 3).isSome = true :=
  ⟨Or.inr (by omega), truncate_total_unless_narrow _ 3 (Or.inr (by omega))⟩

end Cmdbox
